import Mathlib

/-!
Verification of the ingestion-orchestration subsystem of the repository
(`db_insertion/auto_loader.py`, `db_insertion/dataset_cache.py`,
`db_insertion/database/insert_profile.py`,
`db_insertion/database/insert_measurements.py`).

Each Python function relevant to the claims is shallowly embedded as an
executable Lean definition operating on explicit data (strings as `List Char`,
database tables as lists of rows, network responses as oracle functions).
The embeddings follow the Python source line by line; comments cite the file
and the construct they translate.
-/

namespace ArgoIngest

/-! ### Character-list utilities (embeddings of the Python string operations) -/

/-- Python `s.split(sep)` for a single-character separator `sep`
(used for `f.split("_")` in `filter_best_files` and for `os.path.basename`). -/
def splitOnChar (sep : Char) : List Char → List (List Char)
  | [] => [[]]
  | c :: cs =>
    let r := splitOnChar sep cs
    if c = sep then [] :: r
    else
      match r with
      | [] => [[c]]
      | g :: gs => (c :: g) :: gs

/-- Python `cycle_part.replace(".nc", "")`: remove every non-overlapping
occurrence of `".nc"`, scanning left to right. -/
def removeNc : List Char → List Char
  | '.' :: 'n' :: 'c' :: rest => removeNc rest
  | c :: rest => c :: removeNc rest
  | [] => []

/-- Value of a (nonempty) decimal digit string, as computed by Python `int`. -/
def digitsToNat (l : List Char) : Nat :=
  l.foldl (fun n c => 10 * n + (c.toNat - 48)) 0

/-- Python `os.path.basename` for POSIX paths: the part after the last `/`. -/
def pyBasename (l : List Char) : List Char :=
  (l.reverse.takeWhile (fun c => c ≠ '/')).reverse

/-- Python `base.startswith(p)`. -/
def startsWithL (p l : List Char) : Bool :=
  p.isPrefixOf l

/-! ### `auto_loader.py`: cycle extraction and version resolution -/

/-- The cycle-number parse performed inside `filter_best_files`
(`auto_loader.py` lines 150-161):

```python
parts = f.split("_")
if len(parts) < 2: continue
cycle_part = parts[-1].replace(".nc", "")
cycle_str = "".join(filter(str.isdigit, cycle_part))
if not cycle_str: continue
cycle = int(cycle_str)
```

`none` corresponds to the `continue` branches (the file is skipped). -/
def file_cycle (f : String) : Option Nat :=
  let parts := splitOnChar '_' f.data
  if parts.length < 2 then none
  else
    match parts.getLast? with
    | none => none
    | some lastPart =>
      let cycle_str := (removeNc lastPart).filter Char.isDigit
      if cycle_str.isEmpty then none
      else some (digitsToNat cycle_str)

/-- `get_score` from `filter_best_files` (`auto_loader.py` lines 173-181). -/
def get_score (fname : String) : Nat :=
  let base := pyBasename fname.data
  if startsWithL "SD".data base then 6
  else if startsWithL "SR".data base then 5
  else if startsWithL "BD".data base then 4
  else if startsWithL "BR".data base then 3
  else if startsWithL "D".data base then 2
  else if startsWithL "R".data base then 1
  else 0

/-- One step of building `cycle_map` (`auto_loader.py` lines 163-165):
`cycle_map[cycle].append(f)`, creating the key at the end of the dict when
absent (Python dicts preserve insertion order). -/
def addToMap (m : List (Nat × List String)) (c : Nat) (f : String) :
    List (Nat × List String) :=
  if m.any (fun p => p.1 == c) then
    m.map (fun p => if p.1 == c then (p.1, p.2 ++ [f]) else p)
  else m ++ [(c, [f])]

/-- The `for f in files` grouping loop of `filter_best_files`
(`auto_loader.py` lines 146-167). -/
def cycleMapAux (m : List (Nat × List String)) : List String → List (Nat × List String)
  | [] => m
  | f :: fs =>
    match file_cycle f with
    | none => cycleMapAux m fs
    | some c => cycleMapAux (addToMap m c f) fs

/-- `cycle_map` after the grouping loop of `filter_best_files`. -/
def cycle_map (files : List String) : List (Nat × List String) :=
  cycleMapAux [] files

/-- Python-string `<`: lexicographic comparison of code points. -/
def lexLt : List Char → List Char → Bool
  | _, [] => false
  | [], _ :: _ => true
  | a :: as, b :: bs =>
    if a.toNat < b.toNat then true
    else if b.toNat < a.toNat then false
    else lexLt as bs

/-- Python-string `<=` (what an ascending `sorted` guarantees between
neighbours): `a <= b` iff `not (b < a)`. -/
def strLe (a b : String) : Prop := lexLt b.data a.data = false

instance : DecidableRel strLe := fun a b =>
  inferInstanceAs (Decidable (lexLt b.data a.data = false))

/-- Score order used by `file_list.sort(key=get_score, reverse=True)`:
descending by score.  `List.insertionSort` with this relation is a stable
descending sort, hence computes the same list as Python's stable `list.sort`. -/
def scoreGe (a b : String) : Prop := get_score b ≤ get_score a

instance : DecidableRel scoreGe := fun a b =>
  inferInstanceAs (Decidable (get_score b ≤ get_score a))

/-- `file_list.sort(key=get_score, reverse=True); best_file = file_list[0]`
(`auto_loader.py` lines 183-187): head of the stable descending sort. -/
def best_file (group : List String) : Option String :=
  (List.insertionSort scoreGe group).head?

/-- `filter_best_files` (`auto_loader.py` lines 140-190): group by cycle,
keep the best-scored file of each group, return `sorted(final_list)`
(Python `sorted` on strings = lexicographic ascending). -/
def filter_best_files (files : List String) : List String :=
  List.insertionSort strLe ((cycle_map files).filterMap (fun p => best_file p.2))

/-- `extract_cycle` (`auto_loader.py` lines 118-120):
`re.findall(r"_(\d+)\.nc", filename)`, first match or `None`.
The regex matches an underscore followed by one or more digits followed
immediately by `.nc`; scanning is leftmost-first. -/
def extract_cycle_chars : List Char → Option (List Char)
  | [] => none
  | '_' :: rest =>
    let d := rest.takeWhile Char.isDigit
    let r := rest.drop d.length
    if !d.isEmpty && startsWithL ".nc".data r then some d
    else extract_cycle_chars rest
  | _ :: rest => extract_cycle_chars rest

/-- `extract_cycle(filename)`: `int(nums[0]) if nums else None`. -/
def extract_cycle (f : String) : Option Nat :=
  (extract_cycle_chars f.data).map digitsToNat

/-- The delta-skip loop of `auto_loader` (`auto_loader.py` lines 335-340):

```python
for f in new_files:
    cycle = extract_cycle(f)
    if cycle is not None and cycle in existing_cycles:
        skipped_count += 1; continue
    files_to_process.append(f)
``` -/
def files_to_process (new_files : List String) (existing : List Nat) : List String :=
  new_files.filter (fun f =>
    match extract_cycle f with
    | some c => !(decide (c ∈ existing))
    | none => true)

/-- The DAC candidate list of `auto_loader` (`auto_loader.py` line 284). -/
def DACS : List String :=
  ["incois", "aoml", "coriolis", "csiro", "jma", "bodc", "kma", "meds", "kordi"]

/-- The archive-locator loop of `auto_loader` (`auto_loader.py` lines 290-303):
probe each DAC in order with a HEAD request; an exception (`probe = none`)
means `continue`; the first `status == 200` wins.  When no DAC matches the
loop falls through and `auto_loader` prints an error and returns `None` --
there is no exception raised on this path. -/
def locate_dac (probe : String → Option Nat) : Option String :=
  DACS.find? (fun d => probe d == some 200)

/-! ### Persistence writer (`insert_profile.py`, `insert_measurements.py`)

The relational tables are modelled as lists of rows.  The columns that the
claims do not inspect (`juld`, `lat`, `lon`, the measurement arrays, ...)
are collapsed into a single `payload` field; the key columns are explicit. -/

/-- A `profiles` row; the table has a unique constraint on
`(float_id, cycle)` (the `ON CONFLICT` target of `insert_profile`). -/
structure ProfileRow where
  float_id : String
  cycle : Nat
  profile_number : Nat
  payload : String
deriving DecidableEq

/-- A `measurements` row, keyed by `(float_id, cycle, profile_number)`;
the table has no unique constraint (duplicates are physically possible). -/
structure MeasRow where
  float_id : String
  cycle : Nat
  profile_number : Nat
  payload : String
deriving DecidableEq

/-- The persisted state touched by one `process_single_file` transaction. -/
structure DB where
  profiles : List ProfileRow
  measurements : List MeasRow
deriving DecidableEq

/-- The `ON CONFLICT (float_id, cycle)` key comparison. -/
def pmatch (p r : ProfileRow) : Bool :=
  decide (r.float_id = p.float_id ∧ r.cycle = p.cycle)

/-- The `DO UPDATE SET ...` action of `insert_profile`: every data column of
the conflicting row is overwritten with the excluded row's values
(`profile_number` is not in the `SET` list, so it is kept). -/
def updRow (p r : ProfileRow) : ProfileRow :=
  if pmatch p r then { r with payload := p.payload } else r

/-- The effect of `insert_profile`'s upsert on the `profiles` table.  If a
row with the `(float_id, cycle)` key exists it is updated in place
(`DO UPDATE`), otherwise the new row is appended. -/
def profUpsert (l : List ProfileRow) (p : ProfileRow) : List ProfileRow :=
  if l.any (pmatch p) then l.map (updRow p) else l ++ [p]

/-- `insert_profile` (`insert_profile.py` lines 19-71): an
`INSERT ... ON CONFLICT (float_id, cycle) DO UPDATE` upsert against the
`profiles` table. -/
def insert_profile (db : DB) (p : ProfileRow) : DB :=
  { db with profiles := profUpsert db.profiles p }

/-- The `(float_id, cycle, profile_number)` key of a measurement row. -/
def mkey (r : MeasRow) : String × Nat × Nat :=
  (r.float_id, r.cycle, r.profile_number)

/-- `SELECT 1 FROM measurements WHERE float_id=... AND cycle=... AND
profile_number=... LIMIT 1` — does any row with this key exist? -/
def kpresent (l : List MeasRow) (k : String × Nat × Nat) : Bool :=
  l.any (fun m => decide (mkey m = k))

/-- `insert_measurements` (`insert_measurements.py` lines 6-135):
empty-frame guard, `unique_keys = df[[...]].drop_duplicates()`, pre-check of
each key against the table, then batch-insert of only the rows whose key had
no persisted rows. -/
def measBatchInsert (m0 : List MeasRow) (df : List MeasRow) : List MeasRow :=
  if df.isEmpty then m0
  else
    let unique_keys := (df.map mkey).dedup
    let existing_profiles := unique_keys.filter (fun k => kpresent m0 k)
    let final_rows := df.filter (fun r => !(decide (mkey r ∈ existing_profiles)))
    m0 ++ final_rows

/-- `insert_measurements` applied to the `measurements` table of the
database. -/
def insert_measurements (db : DB) (df : List MeasRow) : DB :=
  { db with measurements := measBatchInsert db.measurements df }

/-- The database writes of one `process_single_file` call
(`auto_loader.py` lines 240-266, one transaction): `insert_profile`
followed by `insert_measurements`. -/
def ingest (db : DB) (p : ProfileRow) (df : List MeasRow) : DB :=
  insert_measurements (insert_profile db p) df

/-- `get_existing_cycles` (`auto_loader.py` lines 124-134): one
`SELECT DISTINCT cycle FROM profiles WHERE float_id = :fid` statement.
The second component counts the SQL statements the function executes
(`conn.execute` is called exactly once, whatever the result size). -/
def get_existing_cycles (db : DB) (fid : String) : List Nat × Nat :=
  (((db.profiles.filter (fun r => r.float_id == fid)).map (fun r => r.cycle)).dedup, 1)

/-! ### `dataset_cache.py`: in-memory LRU cache state

`DatasetCache._cache` is an `OrderedDict` `url -> (ds, size, last_used,
created)`; insertions move the entry to the *front* (MRU), evictions pop the
*back* (LRU).  The opened `xarray` handle is irrelevant to the claims and is
dropped; everything else is kept. -/

/-- One `_cache` entry: `url -> (size_bytes, last_used_ts, created_ts)`. -/
structure CEntry where
  url : String
  size : Nat
  last_used : Nat
  created : Nat
deriving DecidableEq

/-- The mutable cache state of a `DatasetCache` instance, with its two
capacity parameters.  `entries` is ordered MRU-first (head) to LRU-last,
matching the `OrderedDict` after `move_to_end(url, last=False)`. -/
structure CState where
  entries : List CEntry
  cache_size : Nat
  max_size_bytes : Nat
  max_items : Nat
deriving DecidableEq

/-- `sum(entry sizes)` of the cached entries (the quantity the invariant
`Σ entry.size ≤ max_size_bytes` is about). -/
def sumSizes (l : List CEntry) : Nat :=
  (l.map (fun e => e.size)).sum

def mrAux (maxS maxI needed : Nat) : List CEntry → Nat → List CEntry × Nat
  | [], cacheSize => ([], cacheSize)
  | e :: rest, cacheSize =>
    if cacheSize + needed > maxS ∨ (e :: rest).length ≥ maxI then
      mrAux maxS maxI needed rest (sumSizes rest)
    else (e :: rest, cacheSize)

/-- `DatasetCache._make_room_for` (`dataset_cache.py` lines 215-235).
`mrAux` runs the loop on the *reversed* entry list (LRU first, so that
`popitem(last=True)` is the structural head): while the size or item bound
is violated, pop the LRU entry and recompute `_cache_size` as the sum of
the remaining sizes; the `KeyError` on an empty dict breaks the loop
without recomputing, and no error escapes to the caller. -/
def makeRoomFor (maxS maxI needed : Nat) (entries : List CEntry) (cacheSize : Nat) :
    List CEntry × Nat :=
  let r := mrAux maxS maxI needed entries.reverse cacheSize
  (r.1.reverse, r.2)

/-- Remove the binding of `url` (dict deletion; with unique keys it removes
exactly one entry). -/
def removeKey (url : String) (l : List CEntry) : List CEntry :=
  l.filter (fun e => !(decide (e.url = url)))

/-- The insertion section of `DatasetCache.get_dataset`
(`dataset_cache.py` lines 187-194), run under the lock after a miss:

```python
self._make_room_for(size)
created_ts = time.time()
self._cache[url] = (ds, int(size), created_ts, created_ts)
self._cache.move_to_end(url, last=False)
self._cache_size += int(size)
```

The dict assignment plus `move_to_end(front)` equals: drop any old binding of
`url`, cons the new entry at the front.  Note that the bookkeeping adds the
full `size` unconditionally. -/
def cacheInsert (s : CState) (url : String) (size now : Nat) : CState :=
  let r := makeRoomFor s.max_size_bytes s.max_items size s.entries s.cache_size
  { s with
    entries := ⟨url, size, now, now⟩ :: removeKey url r.1
    cache_size := r.2 + size }

/-- `DatasetCache._evict_key` (`dataset_cache.py` lines 201-213): pop the
binding if present, subtract its recorded size. -/
def evictKey (s : CState) (key : String) : CState :=
  match s.entries.find? (fun e => decide (e.url = key)) with
  | none => s
  | some e =>
    { s with
      entries := removeKey key s.entries
      cache_size := s.cache_size - e.size }

/-- Accounting well-formedness of a cache state: the `_cache_size` counter
equals the true sum of entry sizes, and the dict keys are distinct (an
`OrderedDict` cannot hold a key twice). -/
def cacheWF (s : CState) : Prop :=
  s.cache_size = sumSizes s.entries ∧ (s.entries.map (fun e => e.url)).Nodup

/-- The capacity invariant claimed by the spec:
`Σ entry.size ≤ max_size_bytes` and `|cache| ≤ max_items`. -/
def cacheBounded (s : CState) : Prop :=
  sumSizes s.entries ≤ s.max_size_bytes ∧ s.entries.length ≤ s.max_items

instance (s : CState) : Decidable (cacheWF s) := by
  unfold cacheWF; infer_instance

instance (s : CState) : Decidable (cacheBounded s) := by
  unfold cacheBounded; infer_instance

/-! ### `dataset_cache.py`: `ensure_file` download loop and `get_dataset`

Network and filesystem effects are supplied as oracles: `resp : Nat →
FetchResult` gives the outcome of the `attempt`-th `self._session.get(url)`,
and two booleans say whether `url` names an existing local file and whether
the target file is already staged on disk.  The outputs record the returned
value / raised exception, how many network fetches were issued, and the
negative-cache entry for the url after the call. -/

/-- Outcome of one `self._session.get(url, timeout=timeout)` call: an HTTP
response with a status code, or a raised network exception. -/
inductive FetchResult where
  | status (code : Nat)
  | exc (msg : String)
deriving DecidableEq

/-- The exception captured in `last_exc` inside the retry loop:
the synthetic `Exception(f"Download failed: {url} (status ...)")` or a
caught network exception. -/
inductive LoopExc where
  | http (code : Nat)
  | net (msg : String)
deriving DecidableEq

/-- The reason string stored in `_neg_cache[url]`: `f"HTTP {status}"` in the
404/403 branch, `str(last_exc)` in the post-loop write. -/
inductive NegReason where
  | httpPerm (code : Nat)
  | fromExc (e : LoopExc)
deriving DecidableEq

/-- What `ensure_file` does for the caller: return a path, or raise the
negative-cache exception, or raise `last_exc` after the loop. -/
inductive EnsureRes where
  | ok (path : String)
  | errNegCached (reason : NegReason)
  | errExc (e : LoopExc)
deriving DecidableEq

/-- Result, number of network fetch attempts issued, and the negative-cache
entry `(timestamp, reason)` for the url when the call finishes. -/
structure EnsureOut where
  res : EnsureRes
  fetches : Nat
  neg : Option (Nat × NegReason)
deriving DecidableEq

/-- The `for attempt in range(self.retry_downloads + 1)` loop of
`ensure_file` (`dataset_cache.py` lines 105-131).  Crucially, the
`raise last_exc` in the 404/403 branch sits *inside* the `try`, so it is
caught by the `except Exception` handler, which sleeps and `continue`s:
the loop keeps running after a 404/403 — only the negative-cache write
survives.  After the loop the url is negative-cached with `str(last_exc)`
and `last_exc` is raised. -/
def dl_loop (resp : Nat → FetchResult) (now : Nat) (fname : String) :
    List Nat → LoopExc → Option (Nat × NegReason) → Nat → EnsureOut
  | [], last_exc, _, n => ⟨.errExc last_exc, n, some (now, .fromExc last_exc)⟩
  | a :: rest, _, neg, n =>
    match resp a with
    | .status s =>
      if s = 200 then ⟨.ok fname, n + 1, neg⟩
      else if s = 404 ∨ s = 403 then
        dl_loop resp now fname rest (.http s) (some (now, .httpPerm s)) (n + 1)
      else dl_loop resp now fname rest (.http s) neg (n + 1)
    | .exc m => dl_loop resp now fname rest (.net m) neg (n + 1)

/-- `DatasetCache.ensure_file` (`dataset_cache.py` lines 83-131):
local-path pass-through, disk-cache hit, fresh negative-cache entry raises
before any fetch, otherwise the retry loop runs `retry_downloads + 1`
attempts.  (`last_exc` starts as Python `None`; the loop always runs at
least one iteration, so the initial value is never raised — the `.net`
placeholder below is unobservable.) -/
def ensure_file (urlIsLocalFile diskStaged : Bool)
    (neg0 : Option (Nat × NegReason)) (now ttl retry_downloads : Nat)
    (resp : Nat → FetchResult) (url fname : String) : EnsureOut :=
  if urlIsLocalFile then ⟨.ok url, 0, neg0⟩
  else if diskStaged then ⟨.ok fname, 0, neg0⟩
  else
    match neg0 with
    | some (ts, r) =>
      if now - ts < ttl then ⟨.errNegCached r, 0, neg0⟩
      else dl_loop resp now fname (List.range (retry_downloads + 1)) (.net "init") neg0 0
    | none => dl_loop resp now fname (List.range (retry_downloads + 1)) (.net "init") neg0 0

/-- What `get_dataset` does for the caller. -/
inductive GDRes where
  | okCached
  | okOpened
  | errNegCached (reason : NegReason)
  | errEnsure (e : LoopExc)
  | errOpen (msg : String)
deriving DecidableEq

/-- Result of a `get_dataset` call plus the network fetches it issued. -/
structure GDOut where
  res : GDRes
  fetches : Nat
deriving DecidableEq

/-- The body of `get_dataset` after the negative-cache check
(`dataset_cache.py` lines 149-196): consult the in-memory cache
(`mem = some (size, last_used, created)`), return the handle when the entry
is within TTL; a TTL-expired entry is evicted and treated as a miss; on a
miss call `ensure_file` and then open the dataset (`openRes = none` models a
successful `xr.open_dataset`, `some msg` the re-raised open failure). -/
def gd_after_neg (mem : Option (Nat × Nat × Nat)) (urlIsLocalFile diskStaged : Bool)
    (neg0 : Option (Nat × NegReason)) (now ttl retry_downloads : Nat)
    (resp : Nat → FetchResult) (openRes : Option String) (url fname : String) : GDOut :=
  let memHit : Bool :=
    match mem with
    | some (_, _, created) => !(decide (now - created > ttl))
    | none => false
  if memHit then ⟨.okCached, 0⟩
  else
    let e := ensure_file urlIsLocalFile diskStaged neg0 now ttl retry_downloads resp url fname
    match e.res with
    | .ok _ =>
      match openRes with
      | none => ⟨.okOpened, e.fetches⟩
      | some m => ⟨.errOpen m, e.fetches⟩
    | .errNegCached r => ⟨.errNegCached r, e.fetches⟩
    | .errExc ex => ⟨.errEnsure ex, e.fetches⟩

/-- `DatasetCache.get_dataset` (`dataset_cache.py` lines 136-196), the
control flow relevant to fetching: the negative cache is consulted *first*
(before the in-memory cache) and a fresh entry raises with no fetch;
otherwise the in-memory / disk / download path of `gd_after_neg` runs. -/
def get_dataset (mem : Option (Nat × Nat × Nat)) (urlIsLocalFile diskStaged : Bool)
    (neg0 : Option (Nat × NegReason)) (now ttl retry_downloads : Nat)
    (resp : Nat → FetchResult) (openRes : Option String) (url fname : String) : GDOut :=
  match neg0 with
  | some (ts, r) =>
    if now - ts < ttl then ⟨.errNegCached r, 0⟩
    else gd_after_neg mem urlIsLocalFile diskStaged (some (ts, r)) now ttl
      retry_downloads resp openRes url fname
  | none =>
    gd_after_neg mem urlIsLocalFile diskStaged none now ttl
      retry_downloads resp openRes url fname

/-! ### File listing (`get_server_profile_list` and the inline lister)

Response bodies are plain strings; HTTP outcomes are explicit arguments. -/

/-- Case-insensitive prefix test on char lists (the effect of
`re.IGNORECASE` on the literal parts of a pattern, ASCII case folding). -/
def ciStarts : List Char → List Char → Bool
  | [], _ => true
  | _ :: _, [] => false
  | p :: ps, c :: cs => (p.toLower == c.toLower) && ciStarts ps cs

/-- Case-insensitive suffix test. -/
def ciEnds (pat l : List Char) : Bool :=
  ciStarts pat.reverse l.reverse

def findHrefsAux : Nat → List Char → List (List Char)
  | 0, _ => []
  | _, [] => []
  | fuel + 1, c :: rest =>
    if ciStarts ("href=\"").data (c :: rest) then
      let after := (c :: rest).drop 6
      let content := after.takeWhile (fun ch => ch ≠ '"')
      let rest2 := after.drop content.length
      if (!content.isEmpty) && ciEnds (".nc").data content &&
          (match rest2 with | '"' :: _ => true | _ => false) then
        content :: findHrefsAux fuel (rest2.drop 1)
      else findHrefsAux fuel rest
    else findHrefsAux fuel rest

/-- `re.findall(r'href="([^"]+\.nc)"', body, flags=re.IGNORECASE)`
(`auto_loader.py` line 114): scan left to right for `href="`, capture the
quote-free content, and emit it iff it is nonempty and ends in `.nc`
(case-insensitively) right before the closing quote; matches are
non-overlapping (scanning resumes after the closing quote), and a failed
candidate advances the scan by one character.  Every step consumes at least
one character, so `l.length` steps of fuel make `findHrefsAux` run the scan
to completion. -/
def find_hrefs (l : List Char) : List (List Char) :=
  findHrefsAux l.length l

/-- `get_server_profile_list` (`auto_loader.py` lines 100-115):
`resp.raise_for_status()` raises on any 4xx/5xx status (modelled as the
error branch); otherwise the hrefs matched by the regex are returned as is
-- `re.findall` keeps every match, duplicates included. -/
def get_server_profile_list (status : Nat) (body : String) :
    Except String (List String) :=
  if 400 ≤ status ∧ status < 600 then Except.error "HTTPError"
  else Except.ok ((find_hrefs body.data).map (fun l => String.mk l))

/-- Python `sub in s` (case-sensitive substring test, used by the inline
lister in `auto_loader`). -/
def containsSub (pat : List Char) : List Char → Bool
  | [] => pat.isEmpty
  | c :: rest => pat.isPrefixOf (c :: rest) || containsSub pat rest

/-- Everything after the first occurrence of `sep` (helper for Python
`l.split(sep)[1]`; only called when `sep` occurs in `l`). -/
def afterFirstSub (sep : List Char) : List Char → List Char
  | [] => []
  | c :: rest =>
    if sep.isPrefixOf (c :: rest) then (c :: rest).drop sep.length
    else afterFirstSub sep rest

/-- The part up to the next occurrence of `sep` (so that
`afterFirstSub` + `takeUntilSub` = Python `l.split(sep)[1]`). -/
def takeUntilSub (sep : List Char) : List Char → List Char
  | [] => []
  | c :: rest =>
    if sep.isPrefixOf (c :: rest) then []
    else c :: takeUntilSub sep rest

def pySplitlinesAux : Nat → List Char → List (List Char)
  | 0, _ => []
  | _, [] => []
  | fuel + 1, c :: cs =>
    let line := (c :: cs).takeWhile (fun ch => !(ch == '\n' || ch == '\r'))
    match (c :: cs).drop line.length with
    | '\r' :: '\n' :: t => line :: pySplitlinesAux fuel t
    | _ :: t => line :: pySplitlinesAux fuel t
    | [] => [line]

/-- Python `str.splitlines` restricted to `\n`, `\r\n` and `\r` line
terminators (the terminators that occur in HTTP listing bodies); no trailing
empty line for a terminal newline.  Each step consumes at least one
character, so `l.length` steps of fuel run the split to completion. -/
def pySplitlines (l : List Char) : List (List Char) :=
  pySplitlinesAux l.length l

/-- The inline listing parser of `auto_loader` (`auto_loader.py` lines
316-320):

```python
all_files = [
    line.split('href="')[1].split('"')[0]
    for line in resp.text.splitlines()
    if 'href="' in line and ".nc" in line
]
```

Note this version is case-sensitive and keeps duplicates. -/
def inline_list_files (body : String) : List String :=
  (pySplitlines body.data).filterMap (fun line =>
    if containsSub "href=\"".data line && containsSub ".nc".data line then
      some (String.mk ((takeUntilSub "href=\"".data
        (afterFirstSub "href=\"".data line)).takeWhile (fun c => c ≠ '"')))
    else none)

/-- Overall outcome of the discovery phases of one `auto_loader(float_id,
engine)` run (`auto_loader.py` lines 280-350): DAC location, profile
listing, version resolution, delta-skip.  `dacNotFound` and `listingFailed`
are the two `print(...); return` early exits -- `auto_loader` raises no
exception in either case.  `completed fs` means the run goes on to submit
exactly `fs` to the worker pool. -/
inductive RunResult where
  | dacNotFound
  | listingFailed
  | completed (files_to_process : List String)
deriving DecidableEq

/-- The discovery phases of `auto_loader`: probe DACs in order; on success
issue the listing GET (`listing = none` models a raised network exception,
`some (status, body)` a response, where a 4xx/5xx status makes
`raise_for_status` throw); parse, resolve versions, drop cycles already in
`existing`. -/
def auto_loader_run (probe : String → Option Nat)
    (listing : Option (Nat × String)) (existing : List Nat) : RunResult :=
  match locate_dac probe with
  | none => .dacNotFound
  | some _ =>
    match listing with
    | none => .listingFailed
    | some (status, body) =>
      if 400 ≤ status ∧ status < 600 then .listingFailed
      else
        let all_files := inline_list_files body
        let new_files := filter_best_files all_files
        .completed (files_to_process new_files existing)

/-! ### C1: idempotence of the persistence writers -/

/-- A `Bool` that is not `true` is `false`. -/
theorem bool_ne_true {b : Bool} (h : ¬ b = true) : b = false := by
  cases b
  · rfl
  · exact absurd rfl h

/-- Updating a row does not change its `(float_id, cycle)` key. -/
theorem pmatch_updRow (p r : ProfileRow) : pmatch p (updRow p r) = pmatch p r := by
  unfold updRow
  split <;> rfl

/-- `DO UPDATE` is idempotent on a row. -/
theorem updRow_idem (p r : ProfileRow) : updRow p (updRow p r) = updRow p r := by
  unfold updRow
  cases h : pmatch p r
  · simp [h]
  · simp [h]

/-- A row matches its own key. -/
theorem pmatch_self (p : ProfileRow) : pmatch p p = true := by
  simp [pmatch]

/-- The `DO UPDATE` pass scans rows by key, so it commutes with itself. -/
theorem any_map_updRow (p : ProfileRow) (l : List ProfileRow) :
    (l.map (updRow p)).any (pmatch p) = l.any (pmatch p) := by
  rw [List.any_map]
  have : (pmatch p) ∘ (updRow p) = pmatch p := funext (pmatch_updRow p)
  rw [this]

/-- If no row of `l` matches `p`'s key, the `DO UPDATE` pass is the
identity on `l`. -/
theorem map_updRow_of_no_match (p : ProfileRow) (l : List ProfileRow)
    (h : l.any (pmatch p) = false) : l.map (updRow p) = l := by
  induction l with
  | nil => rfl
  | cons r t ih =>
    simp only [List.any_cons, Bool.or_eq_false_iff] at h
    simp only [List.map_cons, ih h.2, updRow, h.1, Bool.false_eq_true, if_false]

/-- The profile upsert is idempotent: running it a second time with the same
row leaves the table unchanged (the same single row is updated in place). -/
theorem profUpsert_idem (l : List ProfileRow) (p : ProfileRow) :
    profUpsert (profUpsert l p) p = profUpsert l p := by
  unfold profUpsert
  cases h : l.any (pmatch p)
  · simp only [h, Bool.false_eq_true, if_false]
    have happ : (l ++ [p]).any (pmatch p) = true := by
      rw [List.any_append]
      simp [pmatch_self]
    simp only [happ, if_true, List.map_append, map_updRow_of_no_match p l h,
      List.map_cons, List.map_nil]
    have hp : updRow p p = p := by
      simp [updRow, pmatch_self]
    rw [hp]
  · simp only [h, if_true, any_map_updRow, List.map_map]
    have : (updRow p) ∘ (updRow p) = updRow p := by
      funext r
      exact updRow_idem p r
    rw [this]

/-- Splitting a key-existence check over an append. -/
theorem kpresent_append (a b : List MeasRow) (k : String × Nat × Nat) :
    kpresent (a ++ b) k = (kpresent a k || kpresent b k) := by
  unfold kpresent
  exact List.any_append

/-- A member's key is always found. -/
theorem kpresent_of_mem {l : List MeasRow} {r : MeasRow} (h : r ∈ l) :
    kpresent l (mkey r) = true := by
  unfold kpresent
  exact List.any_eq_true.mpr ⟨r, h, by simp⟩

/-- After one batch insert, every key occurring in `df` has at least one
persisted row. -/
theorem kpresent_after_batch (m0 : List MeasRow) (df : List MeasRow)
    (r : MeasRow) (hr : r ∈ df) :
    kpresent (measBatchInsert m0 df) (mkey r) = true := by
  unfold measBatchInsert
  have hne : df.isEmpty = false := by
    cases df with
    | nil => cases hr
    | cons a t => rfl
  simp only [hne, Bool.false_eq_true, if_false]
  rw [kpresent_append]
  cases h0 : kpresent m0 (mkey r)
  · have hnotmem : mkey r ∉ ((df.map mkey).dedup.filter (fun k => kpresent m0 k)) := by
      intro hmem
      have := (List.mem_filter.mp hmem).2
      rw [h0] at this
      exact Bool.false_ne_true this
    have hfinal : r ∈ df.filter (fun x => !(decide (mkey x ∈
        ((df.map mkey).dedup.filter (fun k => kpresent m0 k))))) := by
      refine List.mem_filter.mpr ⟨hr, ?_⟩
      simp [hnotmem]
    rw [kpresent_of_mem hfinal, Bool.or_true]
  · rw [Bool.true_or]

/-- If every key of `df` is already persisted in `m1`, the batch insert is a
no-op (`final_rows` is empty). -/
theorem measBatchInsert_of_all_present (m1 : List MeasRow) (df : List MeasRow)
    (h : ∀ r ∈ df, kpresent m1 (mkey r) = true) :
    measBatchInsert m1 df = m1 := by
  unfold measBatchInsert
  cases hdf : df.isEmpty
  · simp only [Bool.false_eq_true, if_false]
    have hfinal : df.filter (fun r => !(decide (mkey r ∈
        ((df.map mkey).dedup.filter (fun k => kpresent m1 k))))) = [] := by
      refine List.filter_eq_nil_iff.mpr ?_
      intro r hr
      have hmem : mkey r ∈ ((df.map mkey).dedup.filter (fun k => kpresent m1 k)) := by
        refine List.mem_filter.mpr ⟨?_, h r hr⟩
        exact List.mem_dedup.mpr (List.mem_map_of_mem mkey hr)
      simp [hmem]
    rw [hfinal, List.append_nil]
  · simp [hdf]

/-- The measurement batch insert is idempotent: on the second run the
pre-check finds every key already persisted and the whole batch is skipped. -/
theorem measBatchInsert_idem (m0 : List MeasRow) (df : List MeasRow) :
    measBatchInsert (measBatchInsert m0 df) df = measBatchInsert m0 df :=
  measBatchInsert_of_all_present _ df (fun r hr => kpresent_after_batch m0 df r hr)

/-- Two `DB` values with equal tables are equal. -/
theorem db_eq (a b : DB) (h1 : a.profiles = b.profiles)
    (h2 : a.measurements = b.measurements) : a = b := by
  cases a
  cases b
  cases h1
  cases h2
  rfl

/-- C1 - Running the per-cycle ingestion transaction (`insert_profile`
followed by `insert_measurements`, as `process_single_file` executes for one
(float, cycle)) twice with the same parsed data yields exactly the same
persisted state as running it once -- in particular the same row count in
`profiles` and in `measurements`.  `insert_profile` upserts on the
`(float_id, cycle)` unique key and `insert_measurements` pre-checks each
`(float_id, cycle, profile_number)` key and skips rows whose key already has
persisted rows, so re-ingestion creates no duplicate rows. -/
theorem ingest_idempotent (db : DB) (p : ProfileRow) (df : List MeasRow) :
    ingest (ingest db p df) p df = ingest db p df ∧
    (ingest (ingest db p df) p df).profiles.length = (ingest db p df).profiles.length ∧
    (ingest (ingest db p df) p df).measurements.length = (ingest db p df).measurements.length := by
  have hmain : ingest (ingest db p df) p df = ingest db p df := by
    unfold ingest insert_profile insert_measurements
    refine db_eq _ _ ?_ ?_
    · exact profUpsert_idem db.profiles p
    · rw [profUpsert_idem db.profiles p]
      exact measBatchInsert_idem db.measurements df
  exact ⟨hmain, by rw [hmain], by rw [hmain]⟩

/-! ### C6 and C10: delta computation -/

/-- `updRow` never changes the key columns. -/
theorem updRow_float_id (p r : ProfileRow) : (updRow p r).float_id = r.float_id := by
  unfold updRow
  split <;> rfl

/-- `updRow` never changes the cycle column. -/
theorem updRow_cycle (p r : ProfileRow) : (updRow p r).cycle = r.cycle := by
  unfold updRow
  split <;> rfl

/-- After `insert_profile` commits a row for `(fid, cycle)`, the bulk
`SELECT DISTINCT cycle` of `get_existing_cycles` reports that cycle. -/
theorem cycle_seen_after_upsert (db : DB) (p : ProfileRow) (fid : String)
    (h : p.float_id = fid) :
    p.cycle ∈ (get_existing_cycles (insert_profile db p) fid).1 := by
  unfold get_existing_cycles insert_profile
  refine List.mem_dedup.mpr ?_
  unfold profUpsert
  cases hany : db.profiles.any (pmatch p)
  · simp only [Bool.false_eq_true, if_false]
    refine List.mem_map.mpr ⟨p, ?_, rfl⟩
    refine List.mem_filter.mpr ⟨?_, ?_⟩
    · exact List.mem_append.mpr (Or.inr (List.mem_singleton.mpr rfl))
    · simp [h]
  · simp only [if_true]
    obtain ⟨r, hrmem, hpm⟩ := List.any_eq_true.mp hany
    have hkey := of_decide_eq_true hpm
    refine List.mem_map.mpr ⟨updRow p r, ?_, ?_⟩
    · refine List.mem_filter.mpr ⟨List.mem_map_of_mem (updRow p) hrmem, ?_⟩
      have : (updRow p r).float_id = fid := by
        rw [updRow_float_id, hkey.1, h]
      simp [this]
    · rw [updRow_cycle, hkey.2]

/-- C6 - Delta computation: `get_existing_cycles` performs a single bulk
query (one `conn.execute`); the delta-skip loop of `auto_loader` submits
exactly the resolved files whose parsed cycle is not in the persisted set
(files whose cycle cannot be parsed are always submitted); on the concrete
instance with persisted cycles {1,2,3} and archive cycles {1,...,5} the
submitted delta is exactly the cycle-4 and cycle-5 files; and a cycle
committed by `insert_profile` in a prior run is seen by the bulk query, so
it is skipped rather than resubmitted. -/
theorem delta_correct :
    (∀ (db : DB) (fid : String), (get_existing_cycles db fid).2 = 1) ∧
    (∀ (files : List String) (existing : List Nat) (f : String),
      f ∈ files_to_process files existing ↔
        f ∈ files ∧ ∀ c, extract_cycle f = some c → c ∉ existing) ∧
    (files_to_process
        ["R1902675_001.nc", "R1902675_002.nc", "R1902675_003.nc",
         "R1902675_004.nc", "R1902675_005.nc"] [1, 2, 3] =
      ["R1902675_004.nc", "R1902675_005.nc"]) ∧
    (∀ (db : DB) (p : ProfileRow) (fid : String), p.float_id = fid →
      p.cycle ∈ (get_existing_cycles (insert_profile db p) fid).1) := by
  refine ⟨fun db fid => rfl, ?_, by decide, cycle_seen_after_upsert⟩
  intro files existing f
  rw [files_to_process, List.mem_filter]
  cases hc : extract_cycle f with
  | none => simp [hc]
  | some c => simp [hc]

/-- C10 - A filename whose final underscore segment contains a non-digit
before `.nc` (a descending-profile file such as `R1902675_001D.nc`) is
parsed by `extract_cycle` as `None`, yet `filter_best_files` still assigns
it a cycle (concatenating the digits of the segment) and keeps it; the
delta-skip loop therefore never skips such a file, whatever cycles are
already persisted. -/
theorem descending_file_reprocessed :
    extract_cycle ("R1902675_001D.nc") = none ∧
    file_cycle ("R1902675_001D.nc") = some 1 ∧
    filter_best_files ["R1902675_001D.nc"] = ["R1902675_001D.nc"] ∧
    (∀ (f : String) (files : List String) (existing : List Nat),
      f ∈ files → extract_cycle f = none →
      f ∈ files_to_process files existing) := by
  refine ⟨by decide, by decide, by decide, ?_⟩
  intro f files existing hmem hnone
  rw [files_to_process, List.mem_filter]
  refine ⟨hmem, ?_⟩
  rw [hnone]

/-- Witness for `descending_file_reprocessed` at the concrete input: with
cycle 1 already persisted, the descending file of cycle 1 is still
submitted for processing. -/
theorem descending_file_reprocessed_witness :
    ("R1902675_001D.nc") ∈ files_to_process ["R1902675_001D.nc"] [1] :=
  descending_file_reprocessed.2.2.2 ("R1902675_001D.nc") ["R1902675_001D.nc"] [1]
    (List.mem_singleton.mpr rfl) (by decide)

/-! ### C7: archive locator -/

/-- `find?` over an append returns the first hit when everything before it
misses. -/
theorem find_first_hit {α : Type} (p : α → Bool) (l1 : List α) (d : α) (l2 : List α)
    (hmiss : ∀ x ∈ l1, p x = false) (hd : p d = true) :
    (l1 ++ d :: l2).find? p = some d := by
  induction l1 with
  | nil =>
    simp only [List.nil_append]
    exact List.find?_cons_of_pos l2 hd
  | cons x t ih =>
    have hx : p x = false := hmiss x (List.mem_cons_self x t)
    simp only [List.cons_append]
    rw [List.find?_cons_of_neg _ (by simp [hx])]
    exact ih (fun y hy => hmiss y (List.mem_cons_of_mem x hy))

/-- C7 (amended) - The locator probes the DAC candidates sequentially in
list order and resolves to the first one whose HEAD probe returns status
200 (a probe exception is skipped); when no candidate succeeds, the
locator yields `none` and `auto_loader` logs an error and returns early --
it does not raise any exception (there is no `NoArchiveFoundError` in the
code). -/
theorem locator_first_success :
    (∀ (probe : String → Option Nat) (l1 : List String) (d : String) (l2 : List String),
      DACS = l1 ++ d :: l2 → (∀ x ∈ l1, probe x ≠ some 200) → probe d = some 200 →
      locate_dac probe = some d) ∧
    (∀ probe : String → Option Nat,
      (∀ d ∈ DACS, probe d ≠ some 200) →
      locate_dac probe = none ∧
      ∀ listing existing, auto_loader_run probe listing existing = RunResult.dacNotFound) := by
  constructor
  · intro probe l1 d l2 hsplit hmiss hd
    unfold locate_dac
    rw [hsplit]
    refine find_first_hit _ l1 d l2 ?_ (by simp [hd])
    intro x hx
    have := hmiss x hx
    simp only [beq_eq_false_iff_ne, ne_eq]
    exact this
  · intro probe hmiss
    have hnone : locate_dac probe = none := by
      unfold locate_dac
      refine List.find?_eq_none.mpr ?_
      intro d hd
      simp only [beq_eq_false_iff_ne, ne_eq, Bool.not_eq_true]
      exact hmiss d hd
    refine ⟨hnone, ?_⟩
    intro listing existing
    unfold auto_loader_run
    rw [hnone]

/-- Witness for `locator_first_success`: with `incois` answering 404 and
`aoml` answering 200, the locator resolves to `aoml` (the first success in
candidate order); with every probe answering 500, it yields `none` and the
run ends in the `dacNotFound` early return. -/
theorem locator_first_success_witness :
    locate_dac (fun d => if d = "aoml" then some 200 else some 404) = some "aoml" ∧
    locate_dac (fun _ => some 500) = none ∧
    auto_loader_run (fun _ => some 500) (some (200, "x")) [] = RunResult.dacNotFound := by
  refine ⟨?_, ?_, ?_⟩
  · exact locator_first_success.1 (fun d => if d = "aoml" then some 200 else some 404)
      ["incois"] ("aoml") (["coriolis", "csiro", "jma", "bodc", "kma", "meds", "kordi"])
      (by decide) (by decide) (by decide)
  · exact (locator_first_success.2 (fun _ => some 500) (by decide)).1
  · exact (locator_first_success.2 (fun _ => some 500) (by decide)).2 (some (200, "x")) []

/-- C7 (counterexample to the claim as stated) - When no candidate
responds with success, `auto_loader` does not fail with an exception:
probing falls through and the run completes normally with the
`dacNotFound` early return (the locator value is `none`, printed and
returned -- no `NoArchiveFoundError` or any other error is raised). -/
theorem locator_no_error_counterexample :
    locate_dac (fun _ => none) = none ∧
    auto_loader_run (fun _ => none) (some (200, "x")) [] = RunResult.dacNotFound := by
  constructor
  · decide
  · decide

/-! ### C3 and C8: downloader retry policy and negative cache -/

/-- C3 - What `ensure_file` actually does on a permanent 404: the
`raise last_exc` in the 404/403 branch is swallowed by the loop's broad
`except Exception` handler, so the loop sleeps and retries.  With
`retry_downloads = 2` and a server that answers 404 on every attempt, the
call issues 3 network fetches (not 1), records the URL in the negative
cache, and finally raises the download-failed exception. -/
theorem ensure_file_404_retries :
    ensure_file false false none 100 3600 2 (fun _ => FetchResult.status 404) ("u") ("f") =
      ⟨EnsureRes.errExc (LoopExc.http 404), 3,
        some (100, NegReason.fromExc (LoopExc.http 404))⟩ := by
  decide

/-- The retry loop always accumulates its fetch count. -/
theorem dl_loop_fetches_ge (resp : Nat → FetchResult) (now : Nat) (fname : String) :
    ∀ (attempts : List Nat) (last : LoopExc) (neg : Option (Nat × NegReason)) (n : Nat),
      n ≤ (dl_loop resp now fname attempts last neg n).fetches := by
  intro attempts
  induction attempts with
  | nil => intro last neg n; exact Nat.le_refl n
  | cons a rest ih =>
    intro last neg n
    unfold dl_loop
    cases resp a with
    | status s =>
      by_cases h200 : s = 200
      · simp only [h200, if_true]
        exact Nat.le_succ n
      · simp only [h200, if_false]
        by_cases hperm : s = 404 ∨ s = 403
        · simp only [hperm, if_true]
          exact Nat.le_trans (Nat.le_succ n) (ih _ _ (n + 1))
        · simp only [hperm, if_false]
          exact Nat.le_trans (Nat.le_succ n) (ih _ _ (n + 1))
    | exc m => exact Nat.le_trans (Nat.le_succ n) (ih _ _ (n + 1))

/-- A nonempty attempt list issues at least one fetch. -/
theorem dl_loop_fetches_pos (resp : Nat → FetchResult) (now : Nat) (fname : String)
    (a : Nat) (rest : List Nat) (last : LoopExc) (neg : Option (Nat × NegReason)) (n : Nat) :
    n + 1 ≤ (dl_loop resp now fname (a :: rest) last neg n).fetches := by
  unfold dl_loop
  cases resp a with
  | status s =>
    by_cases h200 : s = 200
    · simp only [h200, if_true]
      exact Nat.le_refl (n + 1)
    · simp only [h200, if_false]
      by_cases hperm : s = 404 ∨ s = 403
      · simp only [hperm, if_true]
        exact dl_loop_fetches_ge resp now fname rest _ _ (n + 1)
      · simp only [hperm, if_false]
        exact dl_loop_fetches_ge resp now fname rest _ _ (n + 1)
  | exc m => exact dl_loop_fetches_ge resp now fname rest _ _ (n + 1)

/-- C8 - Negative-cache suppression: while a URL's negative-cache entry is
younger than `ttl_seconds`, both `ensure_file` (for a URL that is not
already staged on disk) and `get_dataset` raise the previously-failed
exception without issuing any network fetch; once the entry's age exceeds
`ttl_seconds`, either call reaches the download loop and issues at least
one fetch attempt again. -/
theorem negative_cache_ttl :
    (∀ (ts : Nat) (r : NegReason) (now ttl retry : Nat) (resp : Nat → FetchResult)
        (url fname : String),
      now - ts < ttl →
      ensure_file false false (some (ts, r)) now ttl retry resp url fname =
        ⟨EnsureRes.errNegCached r, 0, some (ts, r)⟩) ∧
    (∀ (mem : Option (Nat × Nat × Nat)) (uL dS : Bool) (ts : Nat) (r : NegReason)
        (now ttl retry : Nat) (resp : Nat → FetchResult) (openRes : Option String)
        (url fname : String),
      now - ts < ttl →
      get_dataset mem uL dS (some (ts, r)) now ttl retry resp openRes url fname =
        ⟨GDRes.errNegCached r, 0⟩) ∧
    (∀ (ts : Nat) (r : NegReason) (now ttl retry : Nat) (resp : Nat → FetchResult)
        (url fname : String),
      ttl < now - ts →
      1 ≤ (ensure_file false false (some (ts, r)) now ttl retry resp url fname).fetches) ∧
    (∀ (ts : Nat) (r : NegReason) (now ttl retry : Nat) (resp : Nat → FetchResult)
        (openRes : Option String) (url fname : String),
      ttl < now - ts →
      1 ≤ (get_dataset none false false (some (ts, r)) now ttl retry resp
        openRes url fname).fetches) := by
  have hfresh : ∀ (ts : Nat) (r : NegReason) (now ttl retry : Nat)
      (resp : Nat → FetchResult) (url fname : String),
      now - ts < ttl →
      ensure_file false false (some (ts, r)) now ttl retry resp url fname =
        ⟨EnsureRes.errNegCached r, 0, some (ts, r)⟩ := by
    intro ts r now ttl retry resp url fname h
    simp [ensure_file, h]
  have hstale : ∀ (ts : Nat) (r : NegReason) (now ttl retry : Nat)
      (resp : Nat → FetchResult) (url fname : String),
      ttl < now - ts →
      1 ≤ (ensure_file false false (some (ts, r)) now ttl retry resp url fname).fetches := by
    intro ts r now ttl retry resp url fname h
    have h' : ¬ (now - ts < ttl) := by omega
    simp only [ensure_file, Bool.false_eq_true, if_false, h', List.range_succ_eq_map]
    exact dl_loop_fetches_pos resp now fname 0 _ _ _ 0
  refine ⟨hfresh, ?_, hstale, ?_⟩
  · intro mem uL dS ts r now ttl retry resp openRes url fname h
    simp [get_dataset, h]
  · intro ts r now ttl retry resp openRes url fname h
    have h' : ¬ (now - ts < ttl) := by omega
    have hfe : (gd_after_neg none false false (some (ts, r)) now ttl retry resp
        openRes url fname).fetches =
        (ensure_file false false (some (ts, r)) now ttl retry resp url fname).fetches := by
      unfold gd_after_neg
      simp only [Bool.false_eq_true, if_false]
      cases hres : (ensure_file false false (some (ts, r)) now ttl retry resp url fname).res <;>
        cases openRes <;> simp [hres]
    unfold get_dataset
    simp only [h', if_false]
    rw [hfe]
    exact hstale ts r now ttl retry resp url fname h

/-- Witness for `negative_cache_ttl` at concrete inputs: a URL
negative-cached at time 0 with TTL 3600 is suppressed (no fetch) at time
100 by both calls, and is fetched again at time 5000. -/
theorem negative_cache_ttl_witness :
    ensure_file false false (some (0, NegReason.httpPerm 404)) 100 3600 2
        (fun _ => FetchResult.status 200) ("u") ("f") =
      ⟨EnsureRes.errNegCached (NegReason.httpPerm 404), 0,
        some (0, NegReason.httpPerm 404)⟩ ∧
    get_dataset none false false (some (0, NegReason.httpPerm 404)) 100 3600 2
        (fun _ => FetchResult.status 200) none ("u") ("f") =
      ⟨GDRes.errNegCached (NegReason.httpPerm 404), 0⟩ ∧
    1 ≤ (ensure_file false false (some (0, NegReason.httpPerm 404)) 5000 3600 2
        (fun _ => FetchResult.status 200) ("u") ("f")).fetches ∧
    1 ≤ (get_dataset none false false (some (0, NegReason.httpPerm 404)) 5000 3600 2
        (fun _ => FetchResult.status 200) none ("u") ("f")).fetches :=
  ⟨negative_cache_ttl.1 0 (NegReason.httpPerm 404) 100 3600 2 _ ("u") ("f") (by decide),
   negative_cache_ttl.2.1 none false false 0 (NegReason.httpPerm 404) 100 3600 2 _ none
     ("u") ("f") (by decide),
   negative_cache_ttl.2.2.1 0 (NegReason.httpPerm 404) 5000 3600 2 _ ("u") ("f") (by decide),
   negative_cache_ttl.2.2.2 0 (NegReason.httpPerm 404) 5000 3600 2 _ none ("u") ("f")
     (by decide)⟩

/-! ### C2: cache capacity bounds -/

/-- `sumSizes` over a cons. -/
theorem sumSizes_cons (e : CEntry) (l : List CEntry) :
    sumSizes (e :: l) = e.size + sumSizes l := by
  simp [sumSizes]

/-- `sumSizes` is orientation-independent. -/
theorem sumSizes_reverse (l : List CEntry) : sumSizes l.reverse = sumSizes l := by
  simp [sumSizes, List.sum_reverse]

/-- Projection of a literal cache entry. -/
theorem CEntry_size_mk (u : String) (sz lu cr : Nat) :
    (CEntry.mk u sz lu cr).size = sz := rfl

/-- Behaviour of the `_make_room_for` loop (on the reversed, LRU-first
list): with correct bookkeeping on entry, the loop exits with correct
bookkeeping, having only evicted entries, and either the dict is empty or
both capacity conditions are satisfied for the incoming size. -/
theorem mrAux_spec (maxS maxI needed : Nat) :
    ∀ (rev : List CEntry) (cs : Nat), cs = sumSizes rev →
    (mrAux maxS maxI needed rev cs).2 = sumSizes (mrAux maxS maxI needed rev cs).1 ∧
    (mrAux maxS maxI needed rev cs).1.Sublist rev ∧
    ((mrAux maxS maxI needed rev cs).1 = [] ∨
      ((mrAux maxS maxI needed rev cs).2 + needed ≤ maxS ∧
        (mrAux maxS maxI needed rev cs).1.length < maxI)) := by
  intro rev
  induction rev with
  | nil =>
    intro cs hcs
    exact ⟨hcs, List.Sublist.refl _, Or.inl rfl⟩
  | cons e rest ih =>
    intro cs hcs
    by_cases hcond : cs + needed > maxS ∨ (e :: rest).length ≥ maxI
    · have hred : mrAux maxS maxI needed (e :: rest) cs =
          mrAux maxS maxI needed rest (sumSizes rest) := by
        show (if cs + needed > maxS ∨ (e :: rest).length ≥ maxI then
            mrAux maxS maxI needed rest (sumSizes rest)
          else (e :: rest, cs)) = mrAux maxS maxI needed rest (sumSizes rest)
        rw [if_pos hcond]
      rw [hred]
      obtain ⟨h1, h2, h3⟩ := ih (sumSizes rest) rfl
      exact ⟨h1, h2.trans (List.sublist_cons_self e rest), h3⟩
    · have hred : mrAux maxS maxI needed (e :: rest) cs = (e :: rest, cs) := by
        show (if cs + needed > maxS ∨ (e :: rest).length ≥ maxI then
            mrAux maxS maxI needed rest (sumSizes rest)
          else (e :: rest, cs)) = (e :: rest, cs)
        rw [if_neg hcond]
      rw [hred]
      push_neg at hcond
      exact ⟨hcs, List.Sublist.refl _, Or.inr ⟨hcond.1, hcond.2⟩⟩

/-- `makeRoomFor` in the original (MRU-first) orientation. -/
theorem makeRoomFor_spec (maxS maxI needed : Nat) (entries : List CEntry)
    (cs : Nat) (hcs : cs = sumSizes entries) :
    (makeRoomFor maxS maxI needed entries cs).2 =
      sumSizes (makeRoomFor maxS maxI needed entries cs).1 ∧
    (makeRoomFor maxS maxI needed entries cs).1.Sublist entries ∧
    ((makeRoomFor maxS maxI needed entries cs).1 = [] ∨
      ((makeRoomFor maxS maxI needed entries cs).2 + needed ≤ maxS ∧
        (makeRoomFor maxS maxI needed entries cs).1.length < maxI)) := by
  have hrev : cs = sumSizes entries.reverse := by rw [sumSizes_reverse]; exact hcs
  obtain ⟨h1, h2, h3⟩ := mrAux_spec maxS maxI needed entries.reverse cs hrev
  unfold makeRoomFor
  refine ⟨by rw [sumSizes_reverse]; exact h1, ?_, ?_⟩
  · have := h2.reverse
    simpa using this
  · rcases h3 with h | h
    · exact Or.inl (by simp [h])
    · exact Or.inr ⟨h.1, by simpa using h.2⟩

/-- Inserting a fresh entry whose size fits in the configured bound, with
`max_items ≥ 1`, re-establishes both capacity bounds and preserves
accounting well-formedness. -/
theorem cacheInsert_spec (s : CState) (url : String) (size now : Nat)
    (hwf : cacheWF s) (hfresh : url ∉ s.entries.map (fun e => e.url))
    (hsize : size ≤ s.max_size_bytes) (hitems : 1 ≤ s.max_items) :
    cacheBounded (cacheInsert s url size now) ∧ cacheWF (cacheInsert s url size now) := by
  obtain ⟨hacc, hnodup⟩ := hwf
  obtain ⟨h1, h2, h3⟩ := makeRoomFor_spec s.max_size_bytes s.max_items size s.entries
    s.cache_size hacc
  have hkeys_sub : ((makeRoomFor s.max_size_bytes s.max_items size s.entries
      s.cache_size).1.map (fun e => e.url)).Sublist
      (s.entries.map (fun e => e.url)) := h2.map _
  have hfresh' : url ∉ (makeRoomFor s.max_size_bytes s.max_items size s.entries
      s.cache_size).1.map (fun e => e.url) := fun hmem => hfresh (hkeys_sub.subset hmem)
  have hnodup' : ((makeRoomFor s.max_size_bytes s.max_items size s.entries
      s.cache_size).1.map (fun e => e.url)).Nodup := hnodup.sublist hkeys_sub
  have hrem : removeKey url (makeRoomFor s.max_size_bytes s.max_items size s.entries
      s.cache_size).1 = (makeRoomFor s.max_size_bytes s.max_items size s.entries
      s.cache_size).1 := by
    unfold removeKey
    refine List.filter_eq_self.mpr ?_
    intro e he
    simp only [Bool.not_eq_eq_eq_not, Bool.not_true, decide_eq_false_iff_not]
    intro heq
    exact hfresh' (List.mem_map.mpr ⟨e, he, heq⟩)
  unfold cacheInsert cacheBounded cacheWF
  simp only [hrem]
  refine ⟨⟨?_, ?_⟩, ?_, ?_⟩
  · rw [sumSizes_cons, CEntry_size_mk]
    rcases h3 with hnil | hb
    · rw [hnil]
      simpa [sumSizes] using hsize
    · rw [← h1]
      omega
  · rw [List.length_cons]
    rcases h3 with hnil | hb
    · rw [hnil]
      simpa using hitems
    · omega
  · rw [sumSizes_cons, CEntry_size_mk, h1]
    omega
  · rw [List.map_cons]
    exact List.nodup_cons.mpr ⟨hfresh', hnodup'⟩

/-- Deleting the found entry removes exactly its size and one slot
(unique keys). -/
theorem removeKey_spec (key : String) :
    ∀ (l : List CEntry) (e : CEntry),
    (l.map (fun x => x.url)).Nodup →
    l.find? (fun x => decide (x.url = key)) = some e →
    sumSizes (removeKey key l) + e.size = sumSizes l ∧
    (removeKey key l).length + 1 = l.length := by
  intro l
  induction l with
  | nil =>
    intro e _ hfind
    simp [List.find?] at hfind
  | cons h t ih =>
    intro e hnodup hfind
    rw [List.map_cons, List.nodup_cons] at hnodup
    by_cases hk : h.url = key
    · have hfind' : (h :: t).find? (fun x => decide (x.url = key)) = some h :=
        List.find?_cons_of_pos _ (by simp [hk])
      rw [hfind'] at hfind
      obtain rfl : h = e := by injection hfind
      have ht : removeKey key (h :: t) = t := by
        unfold removeKey
        rw [List.filter_cons]
        have hneg : (!(decide (h.url = key))) = false := by simp [hk]
        rw [hneg]
        simp only [Bool.false_eq_true, if_false]
        refine List.filter_eq_self.mpr ?_
        intro x hx
        simp only [Bool.not_eq_eq_eq_not, Bool.not_true, decide_eq_false_iff_not]
        intro hxk
        exact hnodup.1 (by rw [← hk] at hxk; exact List.mem_map.mpr ⟨x, hx, hxk⟩)
      rw [ht]
      refine ⟨?_, ?_⟩
      · simp only [sumSizes_cons]
        omega
      · simp [List.length_cons]
    · have hfind' : (h :: t).find? (fun x => decide (x.url = key)) =
          t.find? (fun x => decide (x.url = key)) :=
        List.find?_cons_of_neg _ (by simp [hk])
      rw [hfind'] at hfind
      obtain ⟨hs, hl⟩ := ih e hnodup.2 hfind
      have hkeep : removeKey key (h :: t) = h :: removeKey key t := by
        unfold removeKey
        rw [List.filter_cons]
        simp [hk]
      rw [hkeep]
      refine ⟨?_, ?_⟩
      · simp only [sumSizes_cons]
        omega
      · simp only [List.length_cons]
        omega

/-- `_evict_key` preserves the capacity bounds and the accounting. -/
theorem evictKey_spec (s : CState) (key : String)
    (hwf : cacheWF s) (hb : cacheBounded s) :
    cacheBounded (evictKey s key) ∧ cacheWF (evictKey s key) := by
  unfold evictKey
  cases hfind : s.entries.find? (fun e => decide (e.url = key)) with
  | none => exact ⟨hb, hwf⟩
  | some e =>
    obtain ⟨hs, hl⟩ := removeKey_spec key s.entries e hwf.2 hfind
    have hsub : (removeKey key s.entries).Sublist s.entries := List.filter_sublist _
    refine ⟨⟨?_, ?_⟩, ?_, ?_⟩
    · show sumSizes (removeKey key s.entries) ≤ s.max_size_bytes
      have := hb.1
      omega
    · show (removeKey key s.entries).length ≤ s.max_items
      have := hb.2
      omega
    · show s.cache_size - e.size = sumSizes (removeKey key s.entries)
      have := hwf.1
      omega
    · show ((removeKey key s.entries).map (fun x => x.url)).Nodup
      exact hwf.2.sublist (hsub.map _)

/-- C2 (amended) - After an insertion of a fresh entry whose estimated size
is at most `max_size_bytes` (and with `max_items ≥ 1`), and after every
eviction, the cache satisfies `Σ entry.size ≤ max_size_bytes` and
`|cache| ≤ max_items`; capacity pressure is resolved internally by LRU
eviction and the operations are total -- no error reaches the caller.
(The unconditional form of the claim is false: see the counterexample for
an entry larger than `max_size_bytes`.) -/
theorem cache_bounds_amended :
    (∀ (s : CState) (url : String) (size now : Nat),
      cacheWF s → url ∉ s.entries.map (fun e => e.url) →
      size ≤ s.max_size_bytes → 1 ≤ s.max_items →
      cacheBounded (cacheInsert s url size now) ∧ cacheWF (cacheInsert s url size now)) ∧
    (∀ (s : CState) (key : String), cacheWF s → cacheBounded s →
      cacheBounded (evictKey s key) ∧ cacheWF (evictKey s key)) :=
  ⟨cacheInsert_spec, evictKey_spec⟩

/-- Witness for `cache_bounds_amended`: inserting a fitting entry into a
well-formed one-entry cache (bounds 10 bytes / 2 items) keeps both bounds;
evicting from it keeps them too. -/
theorem cache_bounds_amended_witness :
    (cacheBounded (cacheInsert ⟨[⟨"a", 4, 0, 0⟩], 4, 10, 2⟩ ("b") 5 1) ∧
      cacheWF (cacheInsert ⟨[⟨"a", 4, 0, 0⟩], 4, 10, 2⟩ ("b") 5 1)) ∧
    (cacheBounded (evictKey ⟨[⟨"a", 4, 0, 0⟩], 4, 10, 2⟩ ("a")) ∧
      cacheWF (evictKey ⟨[⟨"a", 4, 0, 0⟩], 4, 10, 2⟩ ("a"))) :=
  ⟨cache_bounds_amended.1 ⟨[⟨"a", 4, 0, 0⟩], 4, 10, 2⟩ ("b") 5 1
      (by decide) (by decide) (by decide) (by decide),
   cache_bounds_amended.2 ⟨[⟨"a", 4, 0, 0⟩], 4, 10, 2⟩ ("a") (by decide) (by decide)⟩

/-- C2 (counterexample to the claim as stated) - When a single incoming
entry's estimated size (20) alone exceeds `max_size_bytes` (10), the insert
path still stores it after evicting everything: no error is surfaced, but
the resulting cache violates `Σ entry.size ≤ max_size_bytes`, so the
invariant does *not* hold after every mutation. -/
theorem cache_size_bound_counterexample :
    cacheWF (⟨[], 0, 10, 2⟩ : CState) ∧
    sumSizes (cacheInsert ⟨[], 0, 10, 2⟩ ("u") 20 0).entries = 20 ∧
    (cacheInsert ⟨[], 0, 10, 2⟩ ("u") 20 0).max_size_bytes = 10 ∧
    ¬ cacheBounded (cacheInsert ⟨[], 0, 10, 2⟩ ("u") 20 0) := by
  decide

/-! ### C4 and C5: version resolution -/

/-- First maximum: the element Python's stable `sort(key=get_score,
reverse=True)` puts at index 0 -- the earliest element of maximal score. -/
def firstMax : List String → Option String
  | [] => none
  | x :: xs =>
    match firstMax xs with
    | none => some x
    | some m => if get_score m ≤ get_score x then some x else some m

/-- `firstMax` is `none` only on the empty list. -/
theorem firstMax_eq_none : ∀ {l : List String}, firstMax l = none → l = [] := by
  intro l h
  cases l with
  | nil => rfl
  | cons x xs =>
    exfalso
    cases hfm : firstMax xs with
    | none =>
      simp only [firstMax, hfm] at h
      exact Option.noConfusion h
    | some m =>
      simp only [firstMax, hfm] at h
      by_cases hle : get_score m ≤ get_score x
      · rw [if_pos hle] at h; exact Option.noConfusion h
      · rw [if_neg hle] at h; exact Option.noConfusion h

/-- The head of the stable descending `insertionSort` is the first maximum. -/
theorem insertionSort_head_firstMax :
    ∀ l : List String, (List.insertionSort scoreGe l).head? = firstMax l := by
  intro l
  induction l with
  | nil => rfl
  | cons x xs ih =>
    show (List.orderedInsert scoreGe x (List.insertionSort scoreGe xs)).head? = _
    cases hs : List.insertionSort scoreGe xs with
    | nil =>
      have hxs : xs = [] := by
        have hperm := List.perm_insertionSort scoreGe xs
        rw [hs] at hperm
        exact (hperm.nil_eq).symm
      subst hxs
      rfl
    | cons y ys =>
      rw [hs] at ih
      have hfm : firstMax xs = some y := by
        rw [← ih]; rfl
      have hgoal : firstMax (x :: xs) =
          if get_score y ≤ get_score x then some x else some y := by
        simp only [firstMax, hfm]
      show (List.orderedInsert scoreGe x (y :: ys)).head? = firstMax (x :: xs)
      rw [hgoal]
      by_cases hxy : scoreGe x y
      · rw [List.orderedInsert_of_le _ _ hxy]
        have hsc : get_score y ≤ get_score x := hxy
        rw [if_pos hsc]
        rfl
      · have hsc : ¬ (get_score y ≤ get_score x) := hxy
        rw [if_neg hsc]
        simp only [List.orderedInsert]
        rw [if_neg hxy]
        rfl

/-- Specification of `firstMax`: it is a member, it has maximal score, and
everything before it in the list has strictly smaller score. -/
theorem firstMax_spec :
    ∀ (l : List String) (b : String), firstMax l = some b →
    b ∈ l ∧ (∀ g ∈ l, get_score g ≤ get_score b) ∧
    ∃ l1 l2, l = l1 ++ b :: l2 ∧ ∀ g ∈ l1, get_score g < get_score b := by
  intro l
  induction l with
  | nil => intro b h; cases h
  | cons x xs ih =>
    intro b h
    cases hfm : firstMax xs with
    | none =>
      simp only [firstMax, hfm] at h
      obtain rfl : x = b := by injection h
      have hxs : xs = [] := firstMax_eq_none hfm
      subst hxs
      exact ⟨List.mem_singleton.mpr rfl, by simp, [], [], rfl, by simp⟩
    | some m =>
      simp only [firstMax, hfm] at h
      obtain ⟨hmem, hmax, l1, l2, hsplit, hlt⟩ := ih m hfm
      by_cases hle : get_score m ≤ get_score x
      · rw [if_pos hle] at h
        obtain rfl : x = b := by injection h
        refine ⟨List.mem_cons_self _ _, ?_, [], xs, rfl, by simp⟩
        intro g hg
        rcases List.mem_cons.mp hg with rfl | hg'
        · exact Nat.le_refl _
        · exact Nat.le_trans (hmax g hg') hle
      · rw [if_neg hle] at h
        obtain rfl : m = b := by injection h
        have hxlt : get_score x < get_score m := Nat.lt_of_not_le hle
        refine ⟨List.mem_cons_of_mem x hmem, ?_, x :: l1, l2, by rw [hsplit]; rfl, ?_⟩
        · intro g hg
          rcases List.mem_cons.mp hg with rfl | hg'
          · exact Nat.le_of_lt hxlt
          · exact hmax g hg'
        · intro g hg
          rcases List.mem_cons.mp hg with rfl | hg'
          · exact hxlt
          · exact hlt g hg'

/-- `lexLt` on a cons pair, unfolded. -/
theorem lexLt_cons (a b : Char) (as bs : List Char) :
    lexLt (a :: as) (b :: bs) =
      if a.toNat < b.toNat then true
      else if b.toNat < a.toNat then false
      else lexLt as bs := rfl

/-- A list is never `lexLt`-below itself together with the converse
direction: at most one of `a < b`, `b < a` holds. -/
theorem lexLt_asymm : ∀ (a b : List Char), lexLt a b = true → lexLt b a = false := by
  intro a
  induction a with
  | nil =>
    intro b h
    cases b with
    | nil => cases h
    | cons y ys => rfl
  | cons x xs ih =>
    intro b h
    cases b with
    | nil => cases h
    | cons y ys =>
      rw [lexLt_cons] at h
      rw [lexLt_cons]
      by_cases h1 : x.toNat < y.toNat
      · rw [if_neg (by omega), if_pos h1]
      · rw [if_neg h1] at h
        by_cases h2 : y.toNat < x.toNat
        · rw [if_pos h2] at h; cases h
        · rw [if_neg h2] at h
          rw [if_neg h2, if_neg h1]
          exact ih ys h

/-- Totality of the Python string order: for any two strings one of
`a <= b`, `b <= a` holds. -/
theorem strLe_total : ∀ a b : String, strLe a b ∨ strLe b a := by
  intro a b
  unfold strLe
  cases h : lexLt b.data a.data with
  | false => exact Or.inl rfl
  | true => exact Or.inr (lexLt_asymm _ _ h)

/-- Transitivity of `not-less-than` for the code-point order. -/
theorem lexLt_trans_neg :
    ∀ (c b a : List Char), lexLt b a = false → lexLt c b = false → lexLt c a = false := by
  intro c
  induction c with
  | nil =>
    intro b a h1 h2
    have hb : b = [] := by
      cases b with
      | nil => rfl
      | cons y ys => cases h2
    subst hb
    have ha : a = [] := by
      cases a with
      | nil => rfl
      | cons x xs => cases h1
    subst ha
    rfl
  | cons z zs ih =>
    intro b a h1 h2
    cases a with
    | nil => rfl
    | cons x xs =>
      cases b with
      | nil => cases h1
      | cons y ys =>
        rw [lexLt_cons] at h1 h2
        rw [lexLt_cons]
        by_cases hyx : y.toNat < x.toNat
        · rw [if_pos hyx] at h1; cases h1
        · rw [if_neg hyx] at h1
          by_cases hzy : z.toNat < y.toNat
          · rw [if_pos hzy] at h2; cases h2
          · rw [if_neg hzy] at h2
            by_cases hxy : x.toNat < y.toNat
            · rw [if_neg (by omega), if_pos (by omega)]
            · rw [if_neg hxy] at h1
              by_cases hyz : y.toNat < z.toNat
              · rw [if_neg (by omega), if_pos (by omega)]
              · rw [if_neg hyz] at h2
                have hxz : ¬ z.toNat < x.toNat := by omega
                by_cases hzx : x.toNat < z.toNat
                · rw [if_neg hxz, if_pos hzx]
                · rw [if_neg hxz, if_neg hzx]
                  exact ih ys xs h1 h2

instance : IsTotal String strLe := ⟨strLe_total⟩

instance : IsTrans String strLe :=
  ⟨fun a b c h1 h2 => lexLt_trans_neg c.data b.data a.data h1 h2⟩

/-- Keys of `addToMap`: unchanged when the cycle key exists, extended at the
end otherwise. -/
theorem addToMap_keys (m : List (Nat × List String)) (c : Nat) (f : String) :
    (addToMap m c f).map Prod.fst =
      if m.any (fun p => p.1 == c) then m.map Prod.fst
      else m.map Prod.fst ++ [c] := by
  unfold addToMap
  by_cases h : m.any (fun p => p.1 == c)
  · rw [if_pos h, if_pos h, List.map_map]
    refine List.map_congr_left ?_
    intro p _
    by_cases hp : p.1 = c
    · simp [hp]
    · simp [hp]
  · rw [if_neg h, if_neg h, List.map_append]
    rfl

/-- `addToMap` keeps every group nonempty. -/
theorem addToMap_nonempty (m : List (Nat × List String)) (c : Nat) (f : String)
    (h : ∀ p ∈ m, p.2 ≠ []) : ∀ p ∈ addToMap m c f, p.2 ≠ [] := by
  intro p hp
  unfold addToMap at hp
  by_cases hc : m.any (fun q => q.1 == c)
  · rw [if_pos hc] at hp
    obtain ⟨q, hq, hqe⟩ := List.mem_map.mp hp
    by_cases hqc : q.1 == c
    · rw [if_pos hqc] at hqe
      rw [← hqe]
      simp
    · rw [if_neg hqc] at hqe
      rw [← hqe]
      exact h q hq
  · rw [if_neg hc] at hp
    rcases List.mem_append.mp hp with hm | hsingle
    · exact h p hm
    · rw [List.mem_singleton.mp hsingle]
      simp

/-- `addToMap` keeps the group invariant: every member of the group keyed by
`c'` parses to cycle `c'` and satisfies `P`. -/
theorem addToMap_members (P : String → Prop) (m : List (Nat × List String))
    (c : Nat) (f : String)
    (h : ∀ p ∈ m, ∀ x ∈ p.2, file_cycle x = some p.1 ∧ P x)
    (hf : file_cycle f = some c) (hPf : P f) :
    ∀ p ∈ addToMap m c f, ∀ x ∈ p.2, file_cycle x = some p.1 ∧ P x := by
  intro p hp x hx
  unfold addToMap at hp
  by_cases hc : m.any (fun q => q.1 == c)
  · rw [if_pos hc] at hp
    obtain ⟨q, hq, hqe⟩ := List.mem_map.mp hp
    by_cases hqc : q.1 == c
    · rw [if_pos hqc] at hqe
      have hq1 : q.1 = c := by simpa using hqc
      rw [← hqe] at hx
      rcases List.mem_append.mp hx with hold | hnew
      · have := h q hq x hold
        rw [← hqe]
        exact this
      · rw [List.mem_singleton.mp hnew, ← hqe]
        exact ⟨by rw [hf, hq1], hPf⟩
    · rw [if_neg hqc] at hqe
      rw [← hqe] at hx ⊢
      exact h q hq x hx
  · rw [if_neg hc] at hp
    rcases List.mem_append.mp hp with hm | hsingle
    · exact h p hm x hx
    · rw [List.mem_singleton.mp hsingle] at hx ⊢
      rw [List.mem_singleton.mp hx]
      exact ⟨hf, hPf⟩

/-- Key membership for `addToMap`. -/
theorem addToMap_keys_mem (m : List (Nat × List String)) (c : Nat) (f : String)
    (c' : Nat) :
    c' ∈ (addToMap m c f).map Prod.fst ↔ c' ∈ m.map Prod.fst ∨ c' = c := by
  rw [addToMap_keys]
  by_cases hc : m.any (fun p => p.1 == c)
  · rw [if_pos hc]
    constructor
    · exact Or.inl
    · rintro (h | rfl)
      · exact h
      · obtain ⟨p, hp, hpc⟩ := List.any_eq_true.mp hc
        have hpc' : p.1 = c' := by simpa using hpc
        exact List.mem_map.mpr ⟨p, hp, hpc'⟩
  · rw [if_neg hc, List.mem_append, List.mem_singleton]

/-- `addToMap` keeps the keys distinct. -/
theorem addToMap_keys_nodup (m : List (Nat × List String)) (c : Nat) (f : String)
    (h : (m.map Prod.fst).Nodup) : ((addToMap m c f).map Prod.fst).Nodup := by
  rw [addToMap_keys]
  by_cases hc : m.any (fun p => p.1 == c)
  · rw [if_pos hc]
    exact h
  · rw [if_neg hc]
    have hnot : c ∉ m.map Prod.fst := by
      intro hmem
      obtain ⟨p, hp, hpc⟩ := List.mem_map.mp hmem
      exact hc (List.any_eq_true.mpr ⟨p, hp, by simp [hpc]⟩)
    refine List.nodup_append.mpr ⟨h, List.nodup_singleton c, ?_⟩
    intro a ha hb
    rw [List.mem_singleton.mp hb] at ha
    exact hnot ha

/-- Nonemptiness of every group of the cycle map. -/
theorem cmapAux_nonempty : ∀ (fs : List String) (m : List (Nat × List String)),
    (∀ p ∈ m, p.2 ≠ []) → ∀ p ∈ cycleMapAux m fs, p.2 ≠ [] := by
  intro fs
  induction fs with
  | nil => intro m h; exact h
  | cons f fs ih =>
    intro m h
    cases hfc : file_cycle f with
    | none =>
      have heq : cycleMapAux m (f :: fs) = cycleMapAux m fs := by
        simp [cycleMapAux, hfc]
      rw [heq]
      exact ih m h
    | some c =>
      have heq : cycleMapAux m (f :: fs) = cycleMapAux (addToMap m c f) fs := by
        simp [cycleMapAux, hfc]
      rw [heq]
      exact ih _ (addToMap_nonempty m c f h)

/-- Every group member parses to the group's cycle and satisfies `P`. -/
theorem cmapAux_members (P : String → Prop) :
    ∀ (fs : List String) (m : List (Nat × List String)),
    (∀ p ∈ m, ∀ x ∈ p.2, file_cycle x = some p.1 ∧ P x) → (∀ f ∈ fs, P f) →
    ∀ p ∈ cycleMapAux m fs, ∀ x ∈ p.2, file_cycle x = some p.1 ∧ P x := by
  intro fs
  induction fs with
  | nil => intro m h _; exact h
  | cons f fs ih =>
    intro m h hP
    cases hfc : file_cycle f with
    | none =>
      have heq : cycleMapAux m (f :: fs) = cycleMapAux m fs := by
        simp [cycleMapAux, hfc]
      rw [heq]
      exact ih m h (fun g hg => hP g (List.mem_cons_of_mem f hg))
    | some c =>
      have heq : cycleMapAux m (f :: fs) = cycleMapAux (addToMap m c f) fs := by
        simp [cycleMapAux, hfc]
      rw [heq]
      exact ih _
        (addToMap_members P m c f h hfc (hP f (List.mem_cons_self f fs)))
        (fun g hg => hP g (List.mem_cons_of_mem f hg))

/-- The cycle map's keys stay distinct. -/
theorem cmapAux_keys_nodup : ∀ (fs : List String) (m : List (Nat × List String)),
    (m.map Prod.fst).Nodup → ((cycleMapAux m fs).map Prod.fst).Nodup := by
  intro fs
  induction fs with
  | nil => intro m h; exact h
  | cons f fs ih =>
    intro m h
    cases hfc : file_cycle f with
    | none =>
      have heq : cycleMapAux m (f :: fs) = cycleMapAux m fs := by
        simp [cycleMapAux, hfc]
      rw [heq]
      exact ih m h
    | some c =>
      have heq : cycleMapAux m (f :: fs) = cycleMapAux (addToMap m c f) fs := by
        simp [cycleMapAux, hfc]
      rw [heq]
      exact ih _ (addToMap_keys_nodup m c f h)

/-- Key membership of the finished cycle map. -/
theorem cmapAux_keys_mem : ∀ (fs : List String) (m : List (Nat × List String)) (c' : Nat),
    c' ∈ (cycleMapAux m fs).map Prod.fst ↔
      c' ∈ m.map Prod.fst ∨ ∃ f ∈ fs, file_cycle f = some c' := by
  intro fs
  induction fs with
  | nil =>
    intro m c'
    simp [cycleMapAux]
  | cons f fs ih =>
    intro m c'
    cases hfc : file_cycle f with
    | none =>
      have heq : cycleMapAux m (f :: fs) = cycleMapAux m fs := by
        simp [cycleMapAux, hfc]
      rw [heq, ih]
      constructor
      · rintro (h | ⟨g, hg, hgc⟩)
        · exact Or.inl h
        · exact Or.inr ⟨g, List.mem_cons_of_mem f hg, hgc⟩
      · rintro (h | ⟨g, hg, hgc⟩)
        · exact Or.inl h
        · rcases List.mem_cons.mp hg with rfl | hg'
          · rw [hfc] at hgc; cases hgc
          · exact Or.inr ⟨g, hg', hgc⟩
    | some c =>
      have heq : cycleMapAux m (f :: fs) = cycleMapAux (addToMap m c f) fs := by
        simp [cycleMapAux, hfc]
      rw [heq, ih, addToMap_keys_mem]
      constructor
      · rintro ((h | rfl) | ⟨g, hg, hgc⟩)
        · exact Or.inl h
        · exact Or.inr ⟨f, List.mem_cons_self f fs, hfc⟩
        · exact Or.inr ⟨g, List.mem_cons_of_mem f hg, hgc⟩
      · rintro (h | ⟨g, hg, hgc⟩)
        · exact Or.inl (Or.inl h)
        · rcases List.mem_cons.mp hg with rfl | hg'
          · rw [hfc] at hgc
            injection hgc with hcc
            exact Or.inl (Or.inr hcc.symm)
          · exact Or.inr ⟨g, hg', hgc⟩

/-- Groups of `cycle_map` are nonempty. -/
theorem cycle_map_nonempty (files : List String) :
    ∀ p ∈ cycle_map files, p.2 ≠ [] :=
  cmapAux_nonempty files [] (by intro p hp; cases hp)

/-- Group members of `cycle_map` parse to the group key and come from the
input list. -/
theorem cycle_map_members (files : List String) :
    ∀ p ∈ cycle_map files, ∀ x ∈ p.2, file_cycle x = some p.1 ∧ x ∈ files :=
  cmapAux_members (fun x => x ∈ files) files [] (by intro p hp; cases hp)
    (fun f hf => hf)

/-- The keys of `cycle_map` are distinct. -/
theorem cycle_map_keys_nodup (files : List String) :
    ((cycle_map files).map Prod.fst).Nodup :=
  cmapAux_keys_nodup files [] List.nodup_nil

/-- A cycle is a key of `cycle_map` iff some input file parses to it. -/
theorem cycle_map_keys_mem (files : List String) (c : Nat) :
    c ∈ (cycle_map files).map Prod.fst ↔ ∃ f ∈ files, file_cycle f = some c := by
  rw [cycle_map, cmapAux_keys_mem]
  simp

/-- The best files of the groups, in group order, parse to exactly the
group keys. -/
theorem bests_cycles : ∀ (m : List (Nat × List String)),
    (∀ p ∈ m, p.2 ≠ []) → (∀ p ∈ m, ∀ x ∈ p.2, file_cycle x = some p.1) →
    (m.filterMap (fun p => best_file p.2)).map file_cycle =
      m.map (fun p => some p.1) := by
  intro m
  induction m with
  | nil => intro _ _; rfl
  | cons p t ih =>
    intro hne hmem
    have hpne : p.2 ≠ [] := hne p (List.mem_cons_self p t)
    have hbf : best_file p.2 = firstMax p.2 := insertionSort_head_firstMax p.2
    cases hfm : firstMax p.2 with
    | none => exact absurd (firstMax_eq_none hfm) hpne
    | some b =>
      have hb : best_file p.2 = some b := by rw [hbf, hfm]
      simp only [List.filterMap_cons, hb, List.map_cons]
      have hfcb : file_cycle b = some p.1 :=
        hmem p (List.mem_cons_self p t) b (firstMax_spec p.2 b hfm).1
      rw [hfcb,
        ih (fun q hq => hne q (List.mem_cons_of_mem p hq))
           (fun q hq => hmem q (List.mem_cons_of_mem p hq))]

/-- C4 (amended) - `filter_best_files` groups files by parsed cycle number
and, within each group, selects the file with the highest variant rank
(SD=6 > SR=5 > BD=4 > BR=3 > D=2 > R=1 > unrecognized=0); when several
files of a group share the top rank, the one appearing *first in the input
list* is selected (Python's sort is stable), not the lexically smallest;
the selected file appears in the output.  (The claim's tie-break and its
three-file example are refuted by `version_resolution_counterexample`.) -/
theorem version_resolution_amended (files : List String) (c : Nat)
    (grp : List String) (hmem : (c, grp) ∈ cycle_map files) :
    ∃ b, best_file grp = some b ∧ b ∈ grp ∧ b ∈ filter_best_files files ∧
      (∀ g ∈ grp, get_score g ≤ get_score b) ∧
      ∃ l1 l2, grp = l1 ++ b :: l2 ∧ ∀ g ∈ l1, get_score g < get_score b := by
  have hne : grp ≠ [] := cycle_map_nonempty files (c, grp) hmem
  have hbf : best_file grp = firstMax grp := insertionSort_head_firstMax grp
  cases hfm : firstMax grp with
  | none => exact absurd (firstMax_eq_none hfm) hne
  | some b =>
    obtain ⟨hbmem, hmax, l1, l2, hsplit, hlt⟩ := firstMax_spec grp b hfm
    have hb : best_file grp = some b := by rw [hbf, hfm]
    refine ⟨b, hb, hbmem, ?_, hmax, l1, l2, hsplit, hlt⟩
    have hmem2 : b ∈ (cycle_map files).filterMap (fun p => best_file p.2) :=
      List.mem_filterMap.mpr ⟨(c, grp), hmem, hb⟩
    unfold filter_best_files
    exact ((List.perm_insertionSort strLe _).mem_iff).mpr hmem2

/-- Witness for `version_resolution_amended`: in the group of cycle 1 built
from `["R1_001.nc", "D1_001.nc", "SD1_001.nc"]`, the SD-variant (rank 6) is
selected and lands in the output. -/
theorem version_resolution_amended_witness :
    ∃ b, best_file ["R1_001.nc", "D1_001.nc", "SD1_001.nc"] = some b ∧
      b ∈ (["R1_001.nc", "D1_001.nc", "SD1_001.nc"] : List String) ∧
      b ∈ filter_best_files ["R1_001.nc", "D1_001.nc", "SD1_001.nc"] ∧
      (∀ g ∈ (["R1_001.nc", "D1_001.nc", "SD1_001.nc"] : List String),
        get_score g ≤ get_score b) ∧
      ∃ l1 l2, (["R1_001.nc", "D1_001.nc", "SD1_001.nc"] : List String) =
        l1 ++ b :: l2 ∧ ∀ g ∈ l1, get_score g < get_score b :=
  version_resolution_amended ["R1_001.nc", "D1_001.nc", "SD1_001.nc"] 1
    ["R1_001.nc", "D1_001.nc", "SD1_001.nc"] (by decide)

/-- C4 (counterexample to the claim as stated) - First, the claim's own
example fails: in `["R001.nc", "D001.nc", "SD001.nc"]` no filename has an
underscore-separated cycle part, so `filter_best_files` silently drops all
three and returns `[]` -- it does not select `"SD001.nc"`.  Second, the
tie-break is not lexical: for two rank-R files of cycle 1, the lexically
*larger* `"R2_001.nc"` (first in the input) is selected over the lexically
smaller `"R1_001.nc"`. -/
theorem version_resolution_counterexample :
    filter_best_files ["R001.nc", "D001.nc", "SD001.nc"] = [] ∧
    ("SD001.nc") ∉ filter_best_files ["R001.nc", "D001.nc", "SD001.nc"] ∧
    file_cycle ("R2_001.nc") = some 1 ∧
    file_cycle ("R1_001.nc") = some 1 ∧
    get_score ("R2_001.nc") = get_score ("R1_001.nc") ∧
    lexLt ("R1_001.nc").data ("R2_001.nc").data = true ∧
    filter_best_files ["R2_001.nc", "R1_001.nc"] = ["R2_001.nc"] := by
  decide

/-- C5 (amended) - `filter_best_files` returns exactly one filename per
parsed cycle number (its mapped cycles are a permutation of the distinct
group keys), silently excludes filenames from which no cycle can be parsed,
and returns the list sorted lexicographically by *filename* -- not by cycle
number.  (Cycle-sortedness is refuted by `resolver_order_counterexample`.) -/
theorem resolver_output_amended (files : List String) :
    List.Sorted strLe (filter_best_files files) ∧
    (∀ f ∈ filter_best_files files, f ∈ files ∧
      ∃ c, file_cycle f = some c ∧ c ∈ (cycle_map files).map Prod.fst) ∧
    List.Perm ((filter_best_files files).map file_cycle)
      ((cycle_map files).map (fun p => some p.1)) ∧
    ((cycle_map files).map Prod.fst).Nodup ∧
    (∀ c, c ∈ (cycle_map files).map Prod.fst ↔
      ∃ f ∈ files, file_cycle f = some c) := by
  refine ⟨List.sorted_insertionSort strLe _, ?_, ?_, cycle_map_keys_nodup files,
    fun c => cycle_map_keys_mem files c⟩
  · intro f hf
    have hf' : f ∈ (cycle_map files).filterMap (fun p => best_file p.2) :=
      ((List.perm_insertionSort strLe _).mem_iff).mp hf
    obtain ⟨p, hp, hbf⟩ := List.mem_filterMap.mp hf'
    have hperm : f ∈ p.2 := by
      have hne : p.2 ≠ [] := cycle_map_nonempty files p hp
      have heq : firstMax p.2 = some f := by
        rw [← insertionSort_head_firstMax]
        exact hbf
      exact (firstMax_spec p.2 f heq).1
    obtain ⟨hfc, hin⟩ := cycle_map_members files p hp f hperm
    exact ⟨hin, p.1, hfc, List.mem_map.mpr ⟨p, hp, rfl⟩⟩
  · have hmap : ((cycle_map files).filterMap (fun p => best_file p.2)).map
        file_cycle = (cycle_map files).map (fun p => some p.1) :=
      bests_cycles (cycle_map files) (cycle_map_nonempty files)
        (fun p hp x hx => (cycle_map_members files p hp x hx).1)
    have hperm : List.Perm ((filter_best_files files).map file_cycle)
        (((cycle_map files).filterMap (fun p => best_file p.2)).map file_cycle) :=
      (List.perm_insertionSort strLe _).map file_cycle
    rw [hmap] at hperm
    exact hperm

/-- Witness for `resolver_output_amended` at a concrete input: for
`["A_10.nc", "B_2.nc"]` the output keeps both files (one per cycle),
excludes nothing parseable, and is sorted by filename. -/
theorem resolver_output_amended_witness :
    List.Sorted strLe (filter_best_files ["A_10.nc", "B_2.nc"]) ∧
    (("A_10.nc") ∈ filter_best_files ["A_10.nc", "B_2.nc"] →
      ("A_10.nc") ∈ (["A_10.nc", "B_2.nc"] : List String) ∧
      ∃ c, file_cycle ("A_10.nc") = some c ∧
        c ∈ (cycle_map ["A_10.nc", "B_2.nc"]).map Prod.fst) ∧
    List.Perm ((filter_best_files ["A_10.nc", "B_2.nc"]).map file_cycle)
      ((cycle_map ["A_10.nc", "B_2.nc"]).map (fun p => some p.1)) ∧
    ((cycle_map ["A_10.nc", "B_2.nc"]).map Prod.fst).Nodup ∧
    (10 ∈ (cycle_map ["A_10.nc", "B_2.nc"]).map Prod.fst ↔
      ∃ f ∈ (["A_10.nc", "B_2.nc"] : List String), file_cycle f = some 10) :=
  ⟨(resolver_output_amended ["A_10.nc", "B_2.nc"]).1,
   fun h => (resolver_output_amended ["A_10.nc", "B_2.nc"]).2.1 ("A_10.nc") h,
   (resolver_output_amended ["A_10.nc", "B_2.nc"]).2.2.1,
   (resolver_output_amended ["A_10.nc", "B_2.nc"]).2.2.2.1,
   (resolver_output_amended ["A_10.nc", "B_2.nc"]).2.2.2.2 10⟩

/-- C5 (counterexample to the claim as stated) - The output of
`filter_best_files` is sorted lexicographically by filename, not ascending
by cycle number: for `["A_10.nc", "B_2.nc"]` the output is
`["A_10.nc", "B_2.nc"]` whose parsed cycles are `[10, 2]` -- a descending
cycle sequence. -/
theorem resolver_order_counterexample :
    filter_best_files ["A_10.nc", "B_2.nc"] = ["A_10.nc", "B_2.nc"] ∧
    file_cycle ("A_10.nc") = some 10 ∧
    file_cycle ("B_2.nc") = some 2 ∧
    ¬ (10 : Nat) ≤ 2 := by
  decide

/-! ### C9: file lister -/

/-- C9 (counterexample to the claim as stated) - The lister does *not*
deduplicate: `re.findall` returns every match, so a listing body containing
the same href twice yields the filename twice. -/
theorem lister_dedup_counterexample :
    get_server_profile_list 200
        "<a href=\"R1_001.nc\">x</a> <a href=\"R1_001.nc\">y</a>" =
      Except.ok ["R1_001.nc", "R1_001.nc"] ∧
    ¬ (["R1_001.nc", "R1_001.nc"] : List String).Nodup := by
  constructor
  · rfl
  · decide

/-- C9 (amended) - `get_server_profile_list` extracts the `.nc`-suffixed
hrefs case-insensitively and returns the raw filenames *including
duplicates*; on a non-success (4xx/5xx) HTTP status it raises the HTTP
library's error (`raise_for_status` -- there is no `ListingUnavailableError`
class in the code); in `auto_loader` a failed listing (exception or
non-success status) is caught and ends the entity's run early
(`listingFailed`), which is fatal for that entity only. -/
theorem lister_amended :
    (get_server_profile_list 200 "<a HREF=\"A_1.NC\">x</a>" =
      Except.ok ["A_1.NC"]) ∧
    (∀ (status : Nat) (body : String), 400 ≤ status → status < 600 →
      get_server_profile_list status body = Except.error "HTTPError") ∧
    (∀ (probe : String → Option Nat) (existing : List Nat),
      locate_dac probe ≠ none →
      auto_loader_run probe none existing = RunResult.listingFailed ∧
      (∀ (st : Nat) (body : String), 400 ≤ st → st < 600 →
        auto_loader_run probe (some (st, body)) existing =
          RunResult.listingFailed)) := by
  refine ⟨by rfl, ?_, ?_⟩
  · intro status body h1 h2
    unfold get_server_profile_list
    rw [if_pos ⟨h1, h2⟩]
  · intro probe existing hloc
    cases hd : locate_dac probe with
    | none => exact absurd hd hloc
    | some d =>
      constructor
      · unfold auto_loader_run
        rw [hd]
      · intro st body h1 h2
        unfold auto_loader_run
        rw [hd]
        simp only [if_pos (And.intro h1 h2)]

/-- Witness for `lister_amended`: with every DAC probe answering 200, a 404
listing response aborts the run for that float, as does a network
exception; and a 404 status makes the lister itself raise. -/
theorem lister_amended_witness :
    get_server_profile_list 404 ("whatever") = Except.error "HTTPError" ∧
    auto_loader_run (fun _ => some 200) none [] = RunResult.listingFailed ∧
    auto_loader_run (fun _ => some 200) (some (404, "x")) [] =
      RunResult.listingFailed :=
  ⟨lister_amended.2.1 404 ("whatever") (by decide) (by decide),
   (lister_amended.2.2 (fun _ => some 200) [] (by decide)).1,
   (lister_amended.2.2 (fun _ => some 200) [] (by decide)).2 404 ("x")
     (by decide) (by decide)⟩

/-- Witness for `delta_correct` at concrete inputs: one bulk query; the
cycle-4 file passes the delta filter against persisted {1,2,3}; the
five-file archive yields exactly the {4,5} delta; and cycle 1 is visible
to the bulk query right after its profile row is upserted. -/
theorem delta_correct_witness :
    (get_existing_cycles ⟨[], []⟩ ("F")).2 = 1 ∧
    (("R1902675_004.nc") ∈ files_to_process ["R1902675_004.nc"] [1, 2, 3] ↔
      ("R1902675_004.nc") ∈ (["R1902675_004.nc"] : List String) ∧
      ∀ c, extract_cycle ("R1902675_004.nc") = some c →
        c ∉ ([1, 2, 3] : List Nat)) ∧
    (files_to_process
        ["R1902675_001.nc", "R1902675_002.nc", "R1902675_003.nc",
         "R1902675_004.nc", "R1902675_005.nc"] [1, 2, 3] =
      ["R1902675_004.nc", "R1902675_005.nc"]) ∧
    (1 : Nat) ∈ (get_existing_cycles
      (insert_profile ⟨[], []⟩ ⟨"F", 1, 0, "p"⟩) ("F")).1 :=
  ⟨delta_correct.1 ⟨[], []⟩ ("F"),
   delta_correct.2.1 ["R1902675_004.nc"] [1, 2, 3] ("R1902675_004.nc"),
   delta_correct.2.2.1,
   delta_correct.2.2.2 ⟨[], []⟩ ⟨"F", 1, 0, "p"⟩ ("F") rfl⟩

end ArgoIngest
